import Mathlib

/-!
Verification of the analysis pipeline of the envelope_detector
demonstration notebook.

The notebook defines, in plain PyTorch/NumPy code, a covariance estimator,
a spatial-pattern construction (a per-feature grouped same-padding
convolution followed by an unbiased covariance and a contraction with the
spatial filter), spectral estimators for the temporal filters and the
unmixed input, and a gradient based feature-importance computation.  This
file gives a shallow embedding of those computations over exact rational
arithmetic (machine floats become rationals, tensors become functions on
Fin types, fallible Python code returns Except) and proves the specified
properties about them.
-/

namespace ED

/-- Python-level errors observable from the embedded code.  The covariance
code computes the Python integer quotient 1 / (T - unbiased), so Python
raises its built-in ZeroDivisionError when the denominator is zero.
Modelled from the spec: the degenerateInputError constructor stands for
the DegenerateInputError class of the spec error taxonomy (section 7);
no class of that name exists anywhere in the source. -/
inductive PyError where
  | zeroDivisionError : PyError
  | degenerateInputError : PyError
deriving DecidableEq

instance {ε α : Type*} [DecidableEq ε] [DecidableEq α] : DecidableEq (Except ε α) :=
  fun a b =>
  match a, b with
  | .ok x, .ok y => decidable_of_iff (x = y) (by simp)
  | .error x, .error y => decidable_of_iff (x = y) (by simp)
  | .ok _, .error _ => isFalse (by simp)
  | .error _, .ok _ => isFalse (by simp)

/-- Embedding of the covariance function of the notebook on an unbatched
signal of shape (channel, time):

  def covariance(x, unbiased=True, mean=None):
      if mean is None:
          mean = torch.mean(x, dim=-1, keepdims=True)
      x = x - mean
      covariance_matrix = 1 / (x.shape[-1] - unbiased)
          * torch.einsum(...ct, ...Ct -> ...cC, x, x)
      return covariance_matrix

The division 1 / (x.shape[-1] - unbiased) is Python integer arithmetic and
raises ZeroDivisionError when x.shape[-1] - unbiased == 0. -/
def covariance {c t : ℕ} (x : Fin c → Fin t → ℚ) (unbiased : Bool)
    (mean : Option (Fin c → ℚ)) : Except PyError (Fin c → Fin c → ℚ) :=
  if ((t : ℤ) - unbiased.toNat) = 0 then .error .zeroDivisionError
  else
    let m : Fin c → ℚ := mean.getD (fun i => (∑ j, x i j) / t)
    .ok (fun i k =>
      (1 / ((t : ℚ) - unbiased.toNat)) * ∑ j, (x i j - m i) * (x k j - m k))

/-- Embedding of the same covariance function on a batched signal of shape
(batch, channel, time).  The einsum pattern ...ct, ...Ct -> ...cC sums
over the time axis only and maps over every leading batch index. -/
def covarianceB {b c t : ℕ} (x : Fin b → Fin c → Fin t → ℚ) (unbiased : Bool)
    (mean : Option (Fin b → Fin c → ℚ)) :
    Except PyError (Fin b → Fin c → Fin c → ℚ) :=
  if ((t : ℤ) - unbiased.toNat) = 0 then .error .zeroDivisionError
  else
    let m : Fin b → Fin c → ℚ := mean.getD (fun bi i => (∑ j, x bi i j) / t)
    .ok (fun bi i k =>
      (1 / ((t : ℚ) - unbiased.toNat)) *
        ∑ j, (x bi i j - m bi i) * (x bi k j - m bi k))

/-- Covariance as the claim words it, written independently of the code:
1 / (T - unbiased) times the sum over time of the outer products of the
mean-centered columns, where centering subtracts the per-channel mean over
the time axis unless an external mean is supplied. -/
def covSpec {c t : ℕ} (x : Fin c → Fin t → ℚ) (unbiased : Bool)
    (mean : Option (Fin c → ℚ)) : Fin c → Fin c → ℚ :=
  let m : Fin c → ℚ := mean.getD (fun i => (∑ j, x i j) / t)
  fun i k => (∑ j, (x i j - m i) * (x k j - m k)) / ((t : ℚ) - unbiased.toNat)

/-- C2: on every batched signal for which the normalizer T - unbiased is
nonzero, the covariance estimator returns, independently in every leading
batch element, exactly the claimed matrix: 1 / (T - unbiased) times the
summed outer products of the mean-centered columns, the centering mean
being the per-(batch, channel) time average unless an external mean is
supplied, in which case that mean is subtracted instead. -/
theorem C2_covariance_formula {b c t : ℕ} (x : Fin b → Fin c → Fin t → ℚ)
    (unbiased : Bool) (mean : Option (Fin b → Fin c → ℚ))
    (h : ((t : ℤ) - unbiased.toNat) ≠ 0) :
    covarianceB x unbiased mean =
      .ok (fun bi => covSpec (x bi) unbiased (mean.map (fun mm => mm bi))) := by
  unfold covarianceB covSpec
  rw [if_neg h]
  refine congrArg Except.ok ?_
  funext bi i k
  rw [one_div, inv_mul_eq_div]
  cases mean with
  | none => rfl
  | some mm => rfl

/-- Witness for C2 at a concrete input: one batch element, one channel,
two time samples, unbiased normalization, no external mean. -/
theorem C2_covariance_formula_witness :
    (((2 : ℕ) : ℤ) - Bool.toNat true) ≠ 0 ∧
      covarianceB (fun (_ : Fin 1) (_ : Fin 1) (j : Fin 2) => (j : ℚ)) true none =
        .ok (fun bi => covSpec
          (fun (_ : Fin 1) (j : Fin 2) => (j : ℚ)) true
          ((none : Option (Fin 1 → Fin 1 → ℚ)).map (fun mm => mm bi))) :=
  ⟨by decide, C2_covariance_formula _ true none (by decide)⟩

/-- C6 (amended): calling the covariance estimator on a signal with a
single time sample and unbiased normalization raises the Python built-in
ZeroDivisionError (there is no DegenerateInputError in the code), rather
than silently returning an infinity or NaN valued matrix. -/
theorem C6_single_sample_unbiased_raises {c : ℕ} (x : Fin c → Fin 1 → ℚ)
    (mean : Option (Fin c → ℚ)) :
    covariance x true mean = .error .zeroDivisionError := by
  unfold covariance
  rw [if_pos (by decide)]

/-- C6 counterexample: at a concrete single-sample input the raised error
is not the DegenerateInputError the claim names. -/
theorem C6_counterexample :
    covariance (fun (_ : Fin 1) (_ : Fin 1) => (0 : ℚ)) true none ≠
      .error .degenerateInputError := by decide

/-- Witness for C6 theorem is not required (no hypothesis), but the
statement has universally quantified data; this closed instance applies it
at a concrete signal. -/
theorem C6_single_sample_unbiased_raises_witness :
    covariance (fun (_ : Fin 2) (_ : Fin 1) => (3 : ℚ)) true none =
      .error .zeroDivisionError :=
  C6_single_sample_unbiased_raises _ none

/-- C9: the matrix returned by the covariance estimator is symmetric in
every leading batch element, for every signal, unbiased setting and
external-mean choice.  Stated through Except.map so that the property is
hypothesis free: on the error branch both sides are the same error. -/
theorem C9_covariance_symmetric {b c t : ℕ} (x : Fin b → Fin c → Fin t → ℚ)
    (unbiased : Bool) (mean : Option (Fin b → Fin c → ℚ)) (bi : Fin b)
    (i k : Fin c) :
    (covarianceB x unbiased mean).map (fun M => M bi i k) =
      (covarianceB x unbiased mean).map (fun M => M bi k i) := by
  unfold covarianceB
  split
  · rfl
  · simp only [Except.map, Except.ok.injEq]
    exact congrArg (fun s : ℚ => (1 / ((t : ℚ) - unbiased.toNat)) * s)
      (Finset.sum_congr rfl (fun j _ => mul_comm _ _))

/-- C10: on a signal whose time axis has length 1, biased covariance with
no external mean returns the all-zero matrix: the single sample is
cancelled by its own mean and the normalizer is 1. -/
theorem C10_single_sample_biased_zero {c : ℕ} (x : Fin c → Fin 1 → ℚ) :
    covariance x false none = .ok (fun _ _ => 0) := by
  unfold covariance
  rw [if_neg (by decide)]
  refine congrArg Except.ok ?_
  funext i k
  simp [Fin.sum_univ_one]

/-- Value of a 1-D signal at an integer index, zero outside the support:
the zero padding used by the same-mode convolution. -/
def zget {t : ℕ} (x : Fin t → ℚ) (z : ℤ) : ℚ :=
  if h : 0 ≤ z ∧ z < t then x ⟨z.toNat, by omega⟩ else 0

/-- Embedding of F.conv1d with padding same on one channel: PyTorch
cross-correlation with total zero padding kernel - 1, of which
(kernel - 1) / 2 zeros (floor) go before the signal and the rest after it,
so when the kernel length is even the extra zero sits at the late side,
the standard same-padding convention. -/
def conv1dSame {t k : ℕ} (w : Fin k → ℚ) (x : Fin t → ℚ) : Fin t → ℚ :=
  fun i => ∑ j : Fin k, w j * zget x ((i : ℤ) + (j : ℤ) - (((k - 1) / 2 : ℕ) : ℤ))

/-- Same-length cross-correlation with the extra zero of an even kernel
placed at the early side instead, as claim C1 words the padding.  For odd
kernel lengths it coincides with conv1dSame. -/
def conv1dSameEarly {t k : ℕ} (w : Fin k → ℚ) (x : Fin t → ℚ) : Fin t → ℚ :=
  fun i => ∑ j : Fin k, w j * zget x ((i : ℤ) + (j : ℤ) - ((k / 2 : ℕ) : ℤ))

/-- Embedding of the body of the spatial_patterns loop of the notebook:
repeat the feature kernel over the channels and apply F.conv1d with
groups = nchannels, padding same and no bias (each channel is filtered by
the same kernel), take the unbiased covariance of the filtered signal,
then contract with the (channel, 1) spatial filter slice of the feature
through einsum ...cC, Ck -> c. -/
def spatialPatternRow {c t k : ℕ} (x : Fin c → Fin t → ℚ) (w : Fin k → ℚ)
    (sf : Fin c → Fin 1 → ℚ) : Except PyError (Fin c → ℚ) :=
  (covariance (fun ch => conv1dSame w (x ch)) true none).map
    (fun cov => fun ch => ∑ C, ∑ kk : Fin 1, cov ch C * sf C kk)

/-- Unfolding lemma: on a nonzero normalizer the covariance estimator
succeeds with the centered second-moment matrix. -/
theorem covariance_ok_of {c t : ℕ} (x : Fin c → Fin t → ℚ) (u : Bool)
    (h : ((t : ℤ) - u.toNat) ≠ 0) :
    covariance x u none =
      .ok (fun i k => (1 / ((t : ℚ) - u.toNat)) *
        ∑ j, (x i j - (∑ j2, x i j2) / t) * (x k j - (∑ j2, x k j2) / t)) := by
  unfold covariance
  rw [if_neg h]
  rfl

/-- Row f of the spatial-pattern matrix exactly as claim C1 words it:
filter every channel with the feature kernel using same-length padding
whose asymmetry is biased to the early side, form the single unbiased
covariance of the filtered signal pooled over all positions, and multiply
that covariance matrix by the feature row of the spatial filter. -/
def spatialPatternClaimRow {c t k : ℕ} (x : Fin c → Fin t → ℚ)
    (w : Fin k → ℚ) (srow : Fin c → ℚ) : Fin c → ℚ :=
  let y : Fin c → Fin t → ℚ := fun ch => conv1dSameEarly w (x ch)
  let m : Fin c → ℚ := fun ch => (∑ j, y ch j) / t
  fun ch => ∑ C,
    ((1 / ((t : ℚ) - 1)) * ∑ j, (y ch j - m ch) * (y C j - m C)) * srow C

/-- Row f of the spatial-pattern matrix as claim C1 amended: identical to
the claim except that the padding asymmetry of an even kernel is biased to
the late side (the extra zero goes after the signal), which is what
padding same does. -/
def spatialPatternAmendedRow {c t k : ℕ} (x : Fin c → Fin t → ℚ)
    (w : Fin k → ℚ) (srow : Fin c → ℚ) : Fin c → ℚ :=
  let y : Fin c → Fin t → ℚ := fun ch => conv1dSame w (x ch)
  let m : Fin c → ℚ := fun ch => (∑ j, y ch j) / t
  fun ch => ∑ C,
    ((1 / ((t : ℚ) - 1)) * ∑ j, (y ch j - m ch) * (y C j - m C)) * srow C

/-- C1 (amended): on at least two pooled positions, the spatial-pattern
loop produces exactly the claimed row, with the padding asymmetry of an
even kernel biased to the late side rather than the early side. -/
theorem C1_spatial_pattern_row {c t k : ℕ} (x : Fin c → Fin t → ℚ)
    (w : Fin k → ℚ) (sf : Fin c → Fin 1 → ℚ) (h : 2 ≤ t) :
    spatialPatternRow x w sf =
      .ok (spatialPatternAmendedRow x w (fun C => sf C 0)) := by
  unfold spatialPatternRow
  rw [covariance_ok_of _ true (by simp only [Bool.toNat_true]; omega)]
  simp only [Except.map]
  refine congrArg Except.ok ?_
  funext ch
  unfold spatialPatternAmendedRow
  refine Finset.sum_congr rfl (fun C _ => ?_)
  rw [Fin.sum_univ_one]
  simp only [Bool.toNat_true, Nat.cast_one]

/-- Witness for C1 at a concrete input: one channel, two time samples,
a singleton kernel, unit spatial filter. -/
theorem C1_spatial_pattern_row_witness :
    2 ≤ 2 ∧
      spatialPatternRow (fun (_ : Fin 1) (j : Fin 2) => if j = 0 then (1 : ℚ) else 0)
          (fun (_ : Fin 1) => (1 : ℚ)) (fun _ _ => 1) =
        .ok (spatialPatternAmendedRow
          (fun (_ : Fin 1) (j : Fin 2) => if j = 0 then (1 : ℚ) else 0)
          (fun (_ : Fin 1) => (1 : ℚ)) (fun C => (fun (_ : Fin 1) (_ : Fin 1) => (1 : ℚ)) C 0)) :=
  ⟨by decide, C1_spatial_pattern_row _ _ _ (by decide)⟩

/-- C1 counterexample: with the even kernel (0, 1) on the signal (1, 0)
the loop returns the zero row while the early-biased padding of the claim
yields the row (1/2), so the claim as stated fails. -/
theorem C1_counterexample :
    spatialPatternRow (fun (_ : Fin 1) (j : Fin 2) => if j = 0 then (1 : ℚ) else 0)
        (fun (j : Fin 2) => if j = 0 then (0 : ℚ) else 1) (fun _ _ => 1) ≠
      .ok (spatialPatternClaimRow
        (fun (_ : Fin 1) (j : Fin 2) => if j = 0 then (1 : ℚ) else 0)
        (fun (j : Fin 2) => if j = 0 then (0 : ℚ) else 1) (fun _ => 1)) := by
  have hcode : spatialPatternRow
      (fun (_ : Fin 1) (j : Fin 2) => if j = 0 then (1 : ℚ) else 0)
      (fun (j : Fin 2) => if j = 0 then (0 : ℚ) else 1) (fun _ _ => 1) =
      .ok (fun _ => 0) := by
    unfold spatialPatternRow
    rw [covariance_ok_of _ true (by decide)]
    simp only [Except.map]
    refine congrArg Except.ok ?_
    funext ch
    norm_num [conv1dSame, zget, Fin.sum_univ_two, Fin.sum_univ_one]
  have hclaim : spatialPatternClaimRow
      (fun (_ : Fin 1) (j : Fin 2) => if j = 0 then (1 : ℚ) else 0)
      (fun (j : Fin 2) => if j = 0 then (0 : ℚ) else 1)
      (fun (_ : Fin 1) => (1 : ℚ)) = fun _ => (1 / 2 : ℚ) := by
    unfold spatialPatternClaimRow conv1dSameEarly zget
    funext ch
    norm_num [Fin.sum_univ_two, Fin.sum_univ_one]
  intro h
  rw [hcode, hclaim] at h
  have h2 := congrFun (Except.ok.inj h) 0
  norm_num at h2

/-- Embedding of torch.fft.fftfreq(nfreq, d = 1/fs): bin j carries
frequency j/(nfreq d) for j below the ceiling of nfreq/2 and the negative
frequency (j - nfreq)/(nfreq d) above it. -/
def fftfreq (n : ℕ) (fs : ℚ) (j : Fin n) : ℚ :=
  (if (j : ℕ) < (n + 1) / 2 then ((j : ℕ) : ℚ) else ((j : ℕ) : ℚ) - n) * fs / n

/-- Embedding of torch.fft.fft(signal, nfreq) on one kernel of length k:
the signal is zero padded (k below nfreq) or truncated (k above nfreq) to
length nfreq and the length-nfreq discrete Fourier transform is taken. -/
noncomputable def fftTorch (nfreq : ℕ) {k : ℕ} (w : Fin k → ℚ) (j : Fin nfreq) : ℂ :=
  ∑ n : Fin nfreq,
    (if hn : (n : ℕ) < k then ((w ⟨n, hn⟩ : ℚ) : ℂ) else 0) *
      Complex.exp (-(2 * (Real.pi : ℂ) * Complex.I * ((j : ℕ) : ℂ) * ((n : ℕ) : ℂ)) /
        ((nfreq : ℕ) : ℂ))

/-- Frequencies returned by the spectrum function of the notebook:
torch.fft.fftfreq(nfreq, 1/fs) restricted to the first nfreq / 2 bins. -/
def spectrum_frequencies (fs : ℚ) (nfreq : ℕ) (i : Fin (nfreq / 2)) : ℚ :=
  fftfreq nfreq fs (Fin.castLE (Nat.div_le_self nfreq 2) i)

/-- Amplitudes returned by the spectrum function of the notebook:
torch.abs of the length-nfreq FFT of each kernel, restricted to the first
nfreq / 2 bins. -/
noncomputable def spectrum_amplitudes (nfreq : ℕ) {f k : ℕ}
    (W : Fin f → Fin k → ℚ) (ft : Fin f) (i : Fin (nfreq / 2)) : ℝ :=
  Complex.abs (fftTorch nfreq (W ft) (Fin.castLE (Nat.div_le_self nfreq 2) i))

/-- The length-nfreq discrete Fourier transform of the kernel zero-padded
to length nfreq, as claim C8 words it: the padded sequence vanishes
outside the kernel support, so the transform is the sum over the kernel
entries of w n times the length-nfreq root of unity to the power j n. -/
noncomputable def dftSpec (nfreq : ℕ) {k : ℕ} (w : Fin k → ℚ) (j : ℕ) : ℂ :=
  ∑ n : Fin k,
    ((w n : ℚ) : ℂ) *
      Complex.exp (-(2 * (Real.pi : ℂ) * Complex.I * (j : ℂ) * ((n : ℕ) : ℂ)) /
        ((nfreq : ℕ) : ℂ))

/-- Embedding of the spectrum function of the notebook as lists, exposing
the bin counts: frequencies fftfreq(nfreq)[:nfreq//2] and amplitudes
abs(fft(signal, nfreq))[..., :nfreq//2] (the assert inside the function
compares the unsliced lengths nfreq and nfreq, which always agree). -/
noncomputable def spectrum (nfreq : ℕ) {f k : ℕ} (W : Fin f → Fin k → ℚ)
    (fs : ℚ) : List ℚ × (Fin f → List ℝ) :=
  ((List.ofFn (fftfreq nfreq fs)).take (nfreq / 2),
   fun ft =>
     (List.ofFn (fun j : Fin nfreq => Complex.abs (fftTorch nfreq (W ft) j))).take
       (nfreq / 2))

/-- Modelled from scipy semantics: scipy.signal.welch with nperseg returns
a one-sided spectrum on nperseg / 2 + 1 frequency bins k fs / nperseg.
The notebook then drops the final (Nyquist) bin with [:-1]. -/
def welch_frequencies (nperseg : ℕ) (fs : ℚ) : List ℚ :=
  List.ofFn (fun j : Fin (nperseg / 2 + 1) => ((j : ℕ) : ℚ) * fs / nperseg)

/-- Frequencies of the input spectrum of the notebook: the welch bins with
the final Nyquist bin dropped. -/
def input_spectrum_frequencies (nperseg : ℕ) (fs : ℚ) : List ℚ :=
  (welch_frequencies nperseg fs).dropLast

/-- C7: for every nfreq, odd or even, the FFT-based filter spectrum (both
its frequency and its amplitude list) and the periodogram-based input
spectrum after dropping its final Nyquist bin all have exactly nfreq / 2
bins, so the two paths never mismatch. -/
theorem C7_bin_counts (nfreq : ℕ) (fs : ℚ) {f k : ℕ} (W : Fin f → Fin k → ℚ)
    (ft : Fin f) :
    (spectrum nfreq W fs).1.length = nfreq / 2 ∧
    ((spectrum nfreq W fs).2 ft).length = nfreq / 2 ∧
    (input_spectrum_frequencies nfreq fs).length = nfreq / 2 := by
  refine ⟨?_, ?_, ?_⟩
  · simp [spectrum, List.length_take, Nat.min_eq_left (Nat.div_le_self nfreq 2)]
  · simp [spectrum, List.length_take, Nat.min_eq_left (Nat.div_le_self nfreq 2)]
  · simp [input_spectrum_frequencies, welch_frequencies]

/-- C8: for kernels no longer than nfreq, the filter spectrum equals the
magnitude of the length-nfreq discrete Fourier transform of the
zero-padded kernel on the first nfreq / 2 bins (the Nyquist bin excluded
when nfreq is even), reported alongside the frequencies i fs / nfreq. -/
theorem C8_filter_spectrum {f k : ℕ} (nfreq : ℕ) (fs : ℚ)
    (W : Fin f → Fin k → ℚ) (ft : Fin f) (i : Fin (nfreq / 2))
    (h : k ≤ nfreq) :
    spectrum_amplitudes nfreq W ft i = Complex.abs (dftSpec nfreq (W ft) (i : ℕ)) ∧
    spectrum_frequencies fs nfreq i = ((i : ℕ) : ℚ) * fs / nfreq := by
  constructor
  · unfold spectrum_amplitudes
    refine congrArg Complex.abs ?_
    unfold fftTorch dftSpec
    simp only [Fin.coe_castLE]
    rw [Fin.sum_univ_eq_sum_range
      (fun n => (if hn : n < k then ((W ft ⟨n, hn⟩ : ℚ) : ℂ) else 0) *
        Complex.exp (-(2 * (Real.pi : ℂ) * Complex.I * ((i : ℕ) : ℂ) * (n : ℂ)) /
          ((nfreq : ℕ) : ℂ))) nfreq]
    rw [← Finset.sum_subset (Finset.range_subset.mpr h)
      (fun x _ hx => by
        rw [dif_neg (fun hlt => hx (Finset.mem_range.mpr hlt)), zero_mul])]
    rw [← Fin.sum_univ_eq_sum_range
      (fun n => (if hn : n < k then ((W ft ⟨n, hn⟩ : ℚ) : ℂ) else 0) *
        Complex.exp (-(2 * (Real.pi : ℂ) * Complex.I * ((i : ℕ) : ℂ) * (n : ℂ)) /
          ((nfreq : ℕ) : ℂ))) k]
    refine Finset.sum_congr rfl (fun n _ => ?_)
    rw [dif_pos n.isLt]
  · unfold spectrum_frequencies fftfreq
    simp only [Fin.coe_castLE]
    rw [if_pos (by have := i.isLt; omega)]

/-- Witness for C8 at a concrete input: one feature, a singleton kernel,
nfreq = 2, unit sample rate, bin 0. -/
theorem C8_filter_spectrum_witness :
    1 ≤ 2 ∧
      (spectrum_amplitudes 2 (fun (_ : Fin 1) (_ : Fin 1) => (1 : ℚ)) 0 0 =
          Complex.abs (dftSpec 2 (fun (_ : Fin 1) => (1 : ℚ))
            (((0 : Fin (2 / 2)) : ℕ))) ∧
        spectrum_frequencies 1 2 0 =
          ((((0 : Fin (2 / 2)) : ℕ) : ℚ) * 1 / ((2 : ℕ) : ℚ))) :=
  ⟨by decide, C8_filter_spectrum 2 1 (fun _ _ => 1) 0 0 (by decide)⟩

/-- Derived spectrum of the notebook: temporal_patterns_spectrum is the
element-wise product of the temporal filter spectrum and the input
spectrum, per feature and frequency bin. -/
def temporal_patterns_spectrum {f n : ℕ} (tfs inp : Fin f → Fin n → ℚ) :
    Fin f → Fin n → ℚ :=
  fun i j => tfs i j * inp i j

/-- Derived spectrum of the notebook: output_spectrum is
torch.pow(temporal_filters_spectrum, 2) times the input spectrum,
element-wise per feature and frequency bin. -/
def output_spectrum {f n : ℕ} (tfs inp : Fin f → Fin n → ℚ) :
    Fin f → Fin n → ℚ :=
  fun i j => tfs i j ^ 2 * inp i j

/-- C3: for every temporal filter spectrum and every input spectrum (hence
for every filter bank and signal producing them), the derived spectra
satisfy output_spectrum = temporal_patterns_spectrum * filter_spectrum as
an exact element-wise algebraic identity per feature and frequency bin. -/
theorem C3_output_spectrum_identity {f n : ℕ} (tfs inp : Fin f → Fin n → ℚ)
    (i : Fin f) (j : Fin n) :
    output_spectrum tfs inp i j =
      temporal_patterns_spectrum tfs inp i j * tfs i j := by
  unfold output_spectrum temporal_patterns_spectrum
  ring

/-- Per-channel mean of a signal over the pooled time axis. -/
def chanMean {c t : ℕ} (x : Fin c → Fin t → ℚ) (i : Fin c) : ℚ :=
  (∑ j, x i j) / t

/-- Centered second moment of a signal: the sum over the pooled axis of
the products of the mean-centered samples of two channels (the biased
covariance rescaled by the sample count). -/
def centeredM2 {c t : ℕ} (x : Fin c → Fin t → ℚ) (i k : Fin c) : ℚ :=
  ∑ j, (x i j - chanMean x i) * (x k j - chanMean x k)

/-- Running accumulator of the chunked covariance: sample count, running
mean and running centered second moment. -/
@[ext]
structure MomentAcc (c : ℕ) where
  n : ℕ
  mean : Fin c → ℚ
  m2 : Fin c → Fin c → ℚ

/-- Summary of one chunk: its length, per-channel means and centered
second moments. -/
def summarize {c t : ℕ} (x : Fin c → Fin t → ℚ) : MomentAcc c :=
  ⟨t, chanMean x, centeredM2 x⟩

/-- Modelled from the spec: Welford-style combination of two chunk
summaries (section 4.2), adding the biased partial second moments
rescaled by the chunk sizes together with the mean-shift correction. -/
def combine {c : ℕ} (A B : MomentAcc c) : MomentAcc c where
  n := A.n + B.n
  mean := fun i =>
    ((A.n : ℚ) * A.mean i + (B.n : ℚ) * B.mean i) / ((A.n : ℚ) + (B.n : ℚ))
  m2 := fun i k =>
    A.m2 i k + B.m2 i k +
      ((A.n : ℚ) * (B.n : ℚ) / ((A.n : ℚ) + (B.n : ℚ))) *
        (B.mean i - A.mean i) * (B.mean k - A.mean k)

/-- Concatenation of two signals along the pooled time axis. -/
def hcat {c t₁ t₂ : ℕ} (x : Fin c → Fin t₁ → ℚ) (y : Fin c → Fin t₂ → ℚ) :
    Fin c → Fin (t₁ + t₂) → ℚ :=
  fun ch => Fin.addCases (x ch) (y ch)

theorem cast_mul_chanMean {c t : ℕ} (x : Fin c → Fin t → ℚ) (i : Fin c) :
    (t : ℚ) * chanMean x i = ∑ j, x i j := by
  unfold chanMean
  rcases Nat.eq_zero_or_pos t with h0 | hpos
  · subst h0; simp
  · rw [mul_comm, div_mul_cancel₀]
    exact Nat.cast_ne_zero.mpr hpos.ne'

theorem sum_sub_chanMean {c t : ℕ} (x : Fin c → Fin t → ℚ) (i : Fin c) :
    ∑ j, (x i j - chanMean x i) = 0 := by
  rw [Finset.sum_sub_distrib, Finset.sum_const, Finset.card_univ,
    Fintype.card_fin, nsmul_eq_mul, cast_mul_chanMean, sub_self]

theorem sum_centered_shift {c t : ℕ} (x : Fin c → Fin t → ℚ) (i k : Fin c)
    (mi mk : ℚ) :
    ∑ j, (x i j - mi) * (x k j - mk) =
      centeredM2 x i k + (t : ℚ) * (chanMean x i - mi) * (chanMean x k - mk) := by
  have h1 : ∀ j : Fin t, (x i j - mi) * (x k j - mk) =
      (x i j - chanMean x i) * (x k j - chanMean x k) +
        ((chanMean x k - mk) * (x i j - chanMean x i) +
          ((chanMean x i - mi) * (x k j - chanMean x k) +
            (chanMean x i - mi) * (chanMean x k - mk))) := fun j => by ring
  rw [Finset.sum_congr rfl (fun j _ => h1 j), Finset.sum_add_distrib,
    Finset.sum_add_distrib, Finset.sum_add_distrib, ← Finset.mul_sum,
    ← Finset.mul_sum, sum_sub_chanMean, sum_sub_chanMean, Finset.sum_const,
    Finset.card_univ, Fintype.card_fin, nsmul_eq_mul]
  unfold centeredM2
  ring

theorem sum_hcat_two {c t₁ t₂ : ℕ} (x : Fin c → Fin t₁ → ℚ)
    (y : Fin c → Fin t₂ → ℚ) (F : ℚ → ℚ → ℚ) (i k : Fin c) :
    ∑ j, F (hcat x y i j) (hcat x y k j) =
      (∑ j, F (x i j) (x k j)) + ∑ j, F (y i j) (y k j) := by
  rw [Fin.sum_univ_add]
  congr 1
  · exact Finset.sum_congr rfl (fun j _ => by simp [hcat])
  · exact Finset.sum_congr rfl (fun j _ => by simp [hcat])

theorem chanMean_hcat {c t₁ t₂ : ℕ} (x : Fin c → Fin t₁ → ℚ)
    (y : Fin c → Fin t₂ → ℚ) (i : Fin c) :
    chanMean (hcat x y) i =
      ((t₁ : ℚ) * chanMean x i + (t₂ : ℚ) * chanMean y i) /
        ((t₁ : ℚ) + (t₂ : ℚ)) := by
  rw [cast_mul_chanMean, cast_mul_chanMean]
  unfold chanMean
  rw [sum_hcat_two x y (fun a _ => a) i i]
  push_cast
  rfl

theorem centeredM2_hcat {c t₁ t₂ : ℕ} (x : Fin c → Fin t₁ → ℚ)
    (y : Fin c → Fin t₂ → ℚ) (i k : Fin c) :
    centeredM2 (hcat x y) i k =
      centeredM2 x i k + centeredM2 y i k +
        ((t₁ : ℚ) * (t₂ : ℚ) / ((t₁ : ℚ) + (t₂ : ℚ))) *
          (chanMean y i - chanMean x i) * (chanMean y k - chanMean x k) := by
  rcases Nat.eq_zero_or_pos (t₁ + t₂) with h0 | hpos
  · have ht₁ : t₁ = 0 := by omega
    have ht₂ : t₂ = 0 := by omega
    subst ht₁; subst ht₂
    simp [centeredM2]
  · have hn : ((t₁ : ℚ) + (t₂ : ℚ)) ≠ 0 := by
      have h2 : ((t₁ + t₂ : ℕ) : ℚ) ≠ 0 := Nat.cast_ne_zero.mpr (by omega)
      push_cast at h2
      exact h2
    have hL : centeredM2 (hcat x y) i k =
        (∑ j, (x i j - chanMean (hcat x y) i) * (x k j - chanMean (hcat x y) k)) +
          ∑ j, (y i j - chanMean (hcat x y) i) * (y k j - chanMean (hcat x y) k) := by
      unfold centeredM2
      exact sum_hcat_two x y
        (fun a b => (a - chanMean (hcat x y) i) * (b - chanMean (hcat x y) k)) i k
    rw [hL, sum_centered_shift x i k _ _, sum_centered_shift y i k _ _,
      chanMean_hcat x y i, chanMean_hcat x y k]
    field_simp
    ring

theorem summarize_hcat {c t₁ t₂ : ℕ} (x : Fin c → Fin t₁ → ℚ)
    (y : Fin c → Fin t₂ → ℚ) :
    summarize (hcat x y) = combine (summarize x) (summarize y) := by
  refine MomentAcc.ext rfl ?_ ?_
  · funext i
    exact chanMean_hcat x y i
  · funext i k
    exact centeredM2_hcat x y i k

/-- Concatenation of a list of chunks along the pooled axis. -/
def concatChunks {c : ℕ} :
    List ((t : ℕ) × (Fin c → Fin t → ℚ)) → (t : ℕ) × (Fin c → Fin t → ℚ)
  | [] => ⟨0, fun _ j => j.elim0⟩
  | ch :: rest => ⟨ch.1 + (concatChunks rest).1, hcat ch.2 (concatChunks rest).2⟩

/-- Modelled from the spec: create_spatial_patterns accumulates the chunk
summaries sequentially with the Welford-style combination (its body is not
under src, only its call sites are). -/
def accumChunks {c : ℕ} (L : List ((t : ℕ) × (Fin c → Fin t → ℚ))) :
    MomentAcc c :=
  L.foldr (fun ch acc => combine (summarize ch.2) acc)
    (summarize (fun _ (j : Fin 0) => j.elim0))

theorem accumChunks_eq {c : ℕ} (L : List ((t : ℕ) × (Fin c → Fin t → ℚ))) :
    accumChunks L = summarize (concatChunks L).2 := by
  induction L with
  | nil => rfl
  | cons ch rest ih =>
    show combine (summarize ch.2) (accumChunks rest) = _
    rw [ih]
    exact (summarize_hcat ch.2 (concatChunks rest).2).symm

/-- Modelled from the spec: the chunked covariance of
create_spatial_patterns, read off the accumulated moments with the
requested normalization, failing exactly as the single-pass code does when
the normalizer is zero. -/
def chunkedCovariance {c : ℕ} (L : List ((t : ℕ) × (Fin c → Fin t → ℚ)))
    (unbiased : Bool) : Except PyError (Fin c → Fin c → ℚ) :=
  if (((accumChunks L).n : ℤ) - unbiased.toNat) = 0 then
    .error .zeroDivisionError
  else
    .ok (fun i k =>
      (1 / (((accumChunks L).n : ℚ) - unbiased.toNat)) * (accumChunks L).m2 i k)

/-- C5: for every chunking of the signal along the pooled axis and every
unbiased or biased setting, the chunked Welford-style accumulation yields
exactly the single-pass covariance of the concatenated signal, over exact
arithmetic.  The spatial pattern rows, being covariance times the fixed
spatial filter row, then agree as well. -/
theorem C5_chunked_covariance_eq {c : ℕ}
    (L : List ((t : ℕ) × (Fin c → Fin t → ℚ))) (unbiased : Bool) :
    chunkedCovariance L unbiased = covariance (concatChunks L).2 unbiased none := by
  unfold chunkedCovariance covariance
  rw [accumChunks_eq]
  rfl

/-- Embedding of the regressor head used by the importance cells of the
notebook: y = Conv1d(nfeatures, 1, kernel_size=1, bias=False)(z), so the
scalar reduction of y (the sum that tape.gradient differentiates) is the
weighted sum of the post-downsampling activation z over every batch,
feature and time position. -/
def ySum {B F T : ℕ} (w : Fin F → ℚ) (z : Fin B → Fin F → Fin T → ℚ) : ℚ :=
  ∑ b, ∑ f, ∑ ti, w f * z b f ti

/-- Activation with one entry incremented by one. -/
def bump {B F T : ℕ} (z : Fin B → Fin F → Fin T → ℚ) (b : Fin B) (f : Fin F)
    (ti : Fin T) : Fin B → Fin F → Fin T → ℚ :=
  fun b2 f2 t2 =>
    if b2 = b ∧ f2 = f ∧ t2 = ti then z b2 f2 t2 + 1 else z b2 f2 t2

/-- Gradient of the summed output with respect to one entry of the
post-downsampling activation z: ySum is linear in z, so the unit finite
difference is exactly the derivative that tape.gradient(y, z) returns. -/
def gradYSum {B F T : ℕ} (w : Fin F → ℚ) (z : Fin B → Fin F → Fin T → ℚ)
    (b : Fin B) (f : Fin F) (ti : Fin T) : ℚ :=
  ySum w (bump z b f ti) - ySum w z

theorem gradYSum_eq {B F T : ℕ} (w : Fin F → ℚ) (z : Fin B → Fin F → Fin T → ℚ)
    (b : Fin B) (f : Fin F) (ti : Fin T) : gradYSum w z b f ti = w f := by
  unfold gradYSum ySum
  simp only [← Finset.sum_sub_distrib]
  have h : ∀ (b2 : Fin B) (f2 : Fin F) (t2 : Fin T),
      w f2 * bump z b f ti b2 f2 t2 - w f2 * z b2 f2 t2 =
        if t2 = ti then (if f2 = f then (if b2 = b then w f else 0) else 0)
        else 0 := by
    intro b2 f2 t2
    unfold bump
    split
    · rename_i hc
      obtain ⟨rfl, rfl, rfl⟩ := hc
      rw [if_pos rfl, if_pos rfl, if_pos rfl]
      ring
    · rename_i hc
      rw [sub_self]
      by_cases h3 : t2 = ti
      · by_cases h2 : f2 = f
        · have h1 : ¬ b2 = b := fun hb => hc ⟨hb, h2, h3⟩
          rw [if_pos h3, if_pos h2, if_neg h1]
        · rw [if_pos h3, if_neg h2]
      · rw [if_neg h3]
  simp only [h, Finset.sum_ite_eq', Finset.mem_univ, if_true]

/-- Modelled from the spec: create_importance_indices of the
envelope_detector package is not under src (only its call site is).
Following spec section 4.4 and the gradients_tf oracle cell of the
notebook, it sums the absolute gradient of the scalar-reduced output with
respect to z over the batch and time axes (all non-feature axes,
accumulated over the whole dataset), and returns the feature indices
sorted by descending score together with the raw score vector. -/
def create_importance_indices {B F T : ℕ} (w : Fin F → ℚ)
    (z : Fin B → Fin F → Fin T → ℚ) : List (Fin F) × (Fin F → ℚ) :=
  let g : Fin F → ℚ := fun f => ∑ b, ∑ ti, |gradYSum w z b f ti|
  (List.insertionSort (fun i j => g j ≤ g i) (List.finRange F), g)

/-- C4: the importance scorer returns, per feature, the sum over all batch
and time positions of the absolute gradient of the scalar-reduced output
with respect to the post-downsampling activation; every score is
non-negative, and the returned index list is a permutation of all feature
indices ranked in descending score order. -/
theorem C4_importance_scores {B F T : ℕ} (w : Fin F → ℚ)
    (z : Fin B → Fin F → Fin T → ℚ) :
    (∀ f, (create_importance_indices w z).2 f =
        ∑ b, ∑ ti, |gradYSum w z b f ti|) ∧
    (∀ f, 0 ≤ (create_importance_indices w z).2 f) ∧
    (create_importance_indices w z).1.Perm (List.finRange F) ∧
    (create_importance_indices w z).1.Pairwise
      (fun i j => (create_importance_indices w z).2 j ≤
        (create_importance_indices w z).2 i) := by
  refine ⟨fun f => rfl, fun f => ?_, ?_, ?_⟩
  · show 0 ≤ ∑ b, ∑ ti, |gradYSum w z b f ti|
    exact Finset.sum_nonneg (fun b _ => Finset.sum_nonneg (fun ti _ => abs_nonneg _))
  · exact List.perm_insertionSort _ _
  · haveI : IsTotal (Fin F) (fun i j => (create_importance_indices w z).2 j ≤
        (create_importance_indices w z).2 i) := ⟨fun a b => le_total _ _⟩
    haveI : IsTrans (Fin F) (fun i j => (create_importance_indices w z).2 j ≤
        (create_importance_indices w z).2 i) :=
      ⟨fun _ _ _ h1 h2 => le_trans h2 h1⟩
    exact List.sorted_insertionSort _ _

end ED
